import Mathlib

/-!
Formal model of the progjpeg progressive-JPEG encoder/decoder core.

The definitions below are shallow embeddings of the Go source:
* the writer side (`example_custom_script.go`): bit counting, `div`,
  `emit`, `emitHuffRLE`, `writePartialBlock`, `writeProgressiveSOS`
  endings, quantization-table scaling, scan-script validation and the
  default-script fallback, and the `Encode` entry point;
* the decoder side (`scan.go`, provided as `src/unnamed/part_001`):
  the progressive SOS header checks and the first-pass DC decoding step.

Machine integers are modelled as `Nat`/`Int` with explicit `% 2 ^ 32`
where 32-bit wrap-around can occur.  The forward DCT and the
pixel-to-block conversion are external primitives (out of scope per the
system specification) and are passed in as parameters.
-/

set_option maxRecDepth 10000

/-- Claim-side notion of bit length, fuel-based so that it reduces in the
kernel.  `bitLenAux fuel n` computes the number of binary digits of `n`
provided `n ≤ fuel`. -/
def bitLenAux : Nat → Nat → Nat
  | 0, _ => 0
  | fuel + 1, n => if n = 0 then 0 else bitLenAux fuel (n / 2) + 1

/-- The number of bits needed to hold `n`: 0 for 0, otherwise
`⌊log₂ n⌋ + 1`. -/
def bitLen (n : Nat) : Nat := bitLenAux n n

/-- The 256-entry `bitCount` lookup table of the source (`bitCount` in
`example_custom_script.go`): `bitCountTable[a]` is the number of bits
needed to hold `a` for `0 ≤ a ≤ 255`. -/
def bitCountTable : List Nat :=
  [0, 1, 2, 2, 3, 3, 3, 3, 4, 4, 4, 4, 4, 4, 4, 4,
   5, 5, 5, 5, 5, 5, 5, 5, 5, 5, 5, 5, 5, 5, 5, 5,
   6, 6, 6, 6, 6, 6, 6, 6, 6, 6, 6, 6, 6, 6, 6, 6,
   6, 6, 6, 6, 6, 6, 6, 6, 6, 6, 6, 6, 6, 6, 6, 6,
   7, 7, 7, 7, 7, 7, 7, 7, 7, 7, 7, 7, 7, 7, 7, 7,
   7, 7, 7, 7, 7, 7, 7, 7, 7, 7, 7, 7, 7, 7, 7, 7,
   7, 7, 7, 7, 7, 7, 7, 7, 7, 7, 7, 7, 7, 7, 7, 7,
   7, 7, 7, 7, 7, 7, 7, 7, 7, 7, 7, 7, 7, 7, 7, 7,
   8, 8, 8, 8, 8, 8, 8, 8, 8, 8, 8, 8, 8, 8, 8, 8,
   8, 8, 8, 8, 8, 8, 8, 8, 8, 8, 8, 8, 8, 8, 8, 8,
   8, 8, 8, 8, 8, 8, 8, 8, 8, 8, 8, 8, 8, 8, 8, 8,
   8, 8, 8, 8, 8, 8, 8, 8, 8, 8, 8, 8, 8, 8, 8, 8,
   8, 8, 8, 8, 8, 8, 8, 8, 8, 8, 8, 8, 8, 8, 8, 8,
   8, 8, 8, 8, 8, 8, 8, 8, 8, 8, 8, 8, 8, 8, 8, 8,
   8, 8, 8, 8, 8, 8, 8, 8, 8, 8, 8, 8, 8, 8, 8, 8,
   8, 8, 8, 8, 8, 8, 8, 8, 8, 8, 8, 8, 8, 8, 8, 8]

/-- Table lookup `bitCount[a]`, the source's bit count of a byte value. -/
def bitCount (a : Nat) : Nat := bitCountTable.getD a 0

/-- `div` from the source: `a/b` rounded to the nearest integer instead of
toward zero.  Go's integer division truncates toward zero, which is
`Int.tdiv`; `b >>> 1` on a non-negative `b` is `b / 2` (Euclidean and
floor division agree for the positive divisor 2). -/
def div (a b : Int) : Int :=
  if 0 ≤ a then Int.tdiv (a + b / 2) b
  else -(Int.tdiv (-a + b / 2) b)

/-- Modelled from the spec: the fixed 64-entry zig-zag → natural
permutation (`unzig`), defined in a repository file that is not under
`src/` but described in §3 of the specification as the standard JPEG
zig-zag order (a bijection on 0..63).  These are the standard values. -/
def unzigTable : List Nat :=
  [0, 1, 8, 16, 9, 2, 3, 10,
   17, 24, 32, 25, 18, 11, 4, 5,
   12, 19, 26, 33, 40, 48, 41, 34,
   27, 20, 13, 6, 7, 14, 21, 28,
   35, 42, 49, 56, 57, 50, 43, 36,
   29, 22, 15, 23, 30, 37, 44, 51,
   58, 59, 52, 45, 38, 31, 39, 46,
   53, 60, 61, 54, 47, 55, 62, 63]

/-- `unzig[zig]`: natural-order index of zig-zag position `zig`. -/
def unzig (zig : Nat) : Nat := unzigTable.getD zig 0

/-- A block of 64 DCT coefficients in natural order, indexed 0..63. -/
def Block : Type := Nat → Int

/-- One entropy-coded emission at the symbol level: either a value encoded
through a Huffman table (`emitHuff h value` in the source, `h` being the
Huffman table index) or a raw literal of `n` bits (`emit bits n`). -/
inductive Emission where
  | huff (h : Nat) (sym : Nat)
  | lit (bits : Nat) (n : Nat)
deriving DecidableEq

/-- The magnitude-category computation of `emitHuffRLE`: `a` is `|value|`
and the category (`nBits` in the source) is looked up in the byte table,
with an extra byte shift for values above 255. -/
def rleSize (a : Int) : Nat :=
  if a < 0x100 then bitCount a.toNat else 8 + bitCount (a.toNat >>> 8)

/-- `emitHuffRLE` from the source, at the symbol level: for a signed
`value` it takes `a = |value|` and `b = value` (or `value - 1` when
negative), computes the category `nBits`, Huffman-encodes
`runLength<<4 | nBits` and, when `nBits > 0`, emits the `nBits` low bits
of `uint32(b)` as a literal.  `uint32(b)` is `b mod 2^32`.  Call sites
always pass `0 ≤ runLength ≤ 15`. -/
def emitHuffRLE (h runLength : Nat) (value : Int) : List Emission :=
  let a : Int := if value < 0 then -value else value
  let b : Int := if value < 0 then value - 1 else value
  let nBits : Nat := rleSize a
  Emission.huff h ((runLength <<< 4) ||| nBits) ::
    (if 0 < nBits then
      [Emission.lit ((b % (2 ^ 32 : Int)).toNat &&& (2 ^ nBits - 1)) nBits]
    else [])

/-- The `for runLength > 15 { emitHuff(h, 0xf0); runLength -= 16 }` loop
of the AC encoder, fuel-based (the fuel is the initial run length, which
bounds the number of iterations).  Returns the ZRL emissions and the
remaining run length. -/
def zrlFlushAux (h : Nat) : Nat → Nat → List Emission × Nat
  | 0, run => ([], run)
  | fuel + 1, run =>
      if 15 < run then
        let r := zrlFlushAux h fuel (run - 16)
        (Emission.huff h 0xf0 :: r.1, r.2)
      else ([], run)

/-- ZRL flush entered with run length `run`. -/
def zrlFlush (h run : Nat) : List Emission × Nat := zrlFlushAux h run run

/-- The AC coefficient loop shared by `writeBlock` and `writePartialBlock`:
walk the zig-zag positions, counting zero quantized coefficients into
`run`; on a non-zero coefficient flush ZRL codes and emit the run/value
pair; after the loop emit one end-of-block code `0x00` iff `run > 0`. -/
def acScanEmissions (h : Nat) (coef : Nat → Int) : List Nat → Nat → List Emission
  | [], run => if 0 < run then [Emission.huff h 0x00] else []
  | zig :: rest, run =>
      if coef zig = 0 then acScanEmissions h coef rest (run + 1)
      else
        let z := zrlFlush h run
        z.1 ++ emitHuffRLE h z.2 (coef zig) ++ acScanEmissions h coef rest 0

/-- The zig-zag index sequence of the loop `for zig := ss; zig <= se; zig++`
(empty when `se < ss`). -/
def zigRangeAux : Nat → Nat → List Nat
  | 0, _ => []
  | n + 1, s => s :: zigRangeAux n (s + 1)

/-- Positions `ss, ss+1, …, se` as naturals. -/
def zigRange (ss se : Int) : List Nat := zigRangeAux (se + 1 - ss).toNat ss.toNat

/-- The quantized coefficient of zig-zag position `zig` of block `b`:
`div(b[unzig[zig]], 8*quant[q][zig])` from the source. -/
def quantizedCoef (b : Block) (quant : Fin 2 → Nat → Nat) (q : Fin 2) (zig : Nat) : Int :=
  div (b (unzig zig)) (8 * (quant q zig : Int))

/-- `writePartialBlock` from the source, at the symbol level.  `fdctF` is
the external forward DCT (out of scope per the specification; the source
calls `fdct(b)` first).  Returns the emissions and the returned DC value:
the new DC predictor for a DC scan (`ss = se = 0`), 0 otherwise.  Note
that for `ss = 0, se > 0` neither branch fires: nothing is emitted and 0
is returned. -/
def writePartialBlock (fdctF : Block → Block) (quant : Fin 2 → Nat → Nat) (q : Fin 2)
    (bIn : Block) (prevDC : Int) (ss se : Int) : List Emission × Int :=
  let b := fdctF bIn
  if ss = 0 ∧ se = 0 then
    let dc := div (b 0) (8 * (quant q 0 : Int))
    (emitHuffRLE (2 * q.val) 0 (dc - prevDC), dc)
  else if 0 < ss then
    (acScanEmissions (2 * q.val + 1) (quantizedCoef b quant q) (zigRange ss se) 0, 0)
  else ([], 0)

/-- `writeBlock` from the source (baseline encoding), at the symbol level:
DC delta followed by the AC loop over zig-zag positions 1..63. -/
def writeBlock (fdctF : Block → Block) (quant : Fin 2 → Nat → Nat) (q : Fin 2)
    (bIn : Block) (prevDC : Int) : List Emission × Int :=
  let b := fdctF bIn
  let dc := div (b 0) (8 * (quant q 0 : Int))
  (emitHuffRLE (2 * q.val) 0 (dc - prevDC) ++
     acScanEmissions (2 * q.val + 1) (quantizedCoef b quant q) (zigRange 1 63) 0,
   dc)

/-- Number of end-of-block codes (Huffman symbol `0x00`) in a list of
emissions. -/
def eobCount (l : List Emission) : Nat :=
  l.countP fun em =>
    match em with
    | .huff _ s => s == 0
    | _ => false

/- ### Properties of `bitLen` and `bitCount` -/

theorem bitLenAux_congr : ∀ f g n : Nat, n ≤ f → n ≤ g → bitLenAux f n = bitLenAux g n := by
  intro f
  induction f with
  | zero =>
    intro g n hf hg
    interval_cases n
    cases g <;> simp [bitLenAux]
  | succ f ih =>
    intro g n hf hg
    by_cases hn : n = 0
    · cases g <;> simp [bitLenAux, hn]
    · obtain ⟨g', rfl⟩ : ∃ g', g = g' + 1 := ⟨g - 1, by omega⟩
      simp only [bitLenAux, hn, if_false]
      rw [ih g' (n / 2) (by omega) (by omega)]

theorem bitLen_rec (n : Nat) : bitLen n = if n = 0 then 0 else bitLen (n / 2) + 1 := by
  by_cases hn : n = 0
  · simp [bitLen, bitLenAux, hn]
  · obtain ⟨m, rfl⟩ : ∃ m, n = m + 1 := ⟨n - 1, by omega⟩
    simp only [bitLen, bitLenAux, hn, if_false]
    congr 1
    exact bitLenAux_congr m ((m + 1) / 2) ((m + 1) / 2) (by omega) (le_refl _)

theorem bitLen_zero_iff (n : Nat) : bitLen n = 0 ↔ n = 0 := by
  rw [bitLen_rec]
  by_cases h : n = 0 <;> simp [h]

theorem bitLen_lt (n : Nat) : n < 2 ^ bitLen n := by
  induction n using Nat.strong_induction_on with
  | _ n ih =>
    rw [bitLen_rec]
    by_cases h : n = 0
    · simp [h]
    · simp only [h, if_false]
      have := ih (n / 2) (by omega)
      rw [pow_succ]
      omega

theorem bitLen_ge (n : Nat) (h : 1 ≤ n) : 2 ^ (bitLen n - 1) ≤ n := by
  induction n using Nat.strong_induction_on with
  | _ n ih =>
    rw [bitLen_rec]
    have hn : n ≠ 0 := by omega
    simp only [hn, if_false]
    by_cases h2 : n / 2 = 0
    · have hz : bitLen (n / 2) = 0 := by rw [bitLen_rec]; simp [h2]
      simp [hz]
      omega
    · have := ih (n / 2) (by omega) (by omega)
      have hb : 1 ≤ bitLen (n / 2) := by
        rcases Nat.eq_zero_or_pos (bitLen (n / 2)) with h0 | h0
        · exact absurd ((bitLen_zero_iff _).mp h0) h2
        · exact h0
      have heq : bitLen (n / 2) + 1 - 1 = bitLen (n / 2) - 1 + 1 := by omega
      rw [heq, pow_succ]
      omega

theorem bitCount_eq_bitLen : ∀ a : Fin 256, bitCount a.val = bitLen a.val := by decide

theorem bitCount_eq_bitLen_of_lt (n : Nat) (h : n < 256) : bitCount n = bitLen n :=
  bitCount_eq_bitLen ⟨n, h⟩

theorem bitLen_div_pow (k : Nat) : ∀ n : Nat, 2 ^ k ≤ n → bitLen n = bitLen (n / 2 ^ k) + k := by
  induction k with
  | zero => intro n _; simp
  | succ k ih =>
    intro n h
    have h1 : 2 ^ k ≤ n := le_trans (Nat.pow_le_pow_right (by omega) (by omega)) h
    have h2 : 2 ≤ n / 2 ^ k := by
      rw [Nat.le_div_iff_mul_le (Nat.pos_pow_of_pos k (by omega))]
      calc 2 * 2 ^ k = 2 ^ (k + 1) := by rw [pow_succ]; ring
        _ ≤ n := h
    rw [ih n h1]
    have h3 : bitLen (n / 2 ^ k) = bitLen (n / 2 ^ k / 2) + 1 := by
      rw [bitLen_rec]
      simp only [show n / 2 ^ k ≠ 0 by omega, if_false]
    rw [h3, Nat.div_div_eq_div_mul]
    have : 2 ^ k * 2 = 2 ^ (k + 1) := by rw [pow_succ]
    rw [this]
    omega

/-- `rleSize |value|` agrees with the bit length for all magnitudes below
`2^16` (the source indexes `bitCount[a>>8]`, defined only below 256). -/
theorem rleSize_eq_bitLen (a : Nat) (h : a < 65536) : rleSize (a : Int) = bitLen a := by
  unfold rleSize
  by_cases h1 : a < 256
  · simp only [Int.toNat_ofNat]
    rw [if_pos (by exact_mod_cast h1)]
    exact bitCount_eq_bitLen_of_lt a h1
  · rw [if_neg (by exact_mod_cast h1)]
    simp only [Int.toNat_ofNat]
    have hs : a >>> 8 = a / 2 ^ 8 := Nat.shiftRight_eq_div_pow a 8
    rw [hs, bitCount_eq_bitLen_of_lt (a / 2 ^ 8) (by omega)]
    rw [bitLen_div_pow 8 a (by omega)]
    omega

theorem lor_ne_zero_right (x y : Nat) (h : y ≠ 0) : x ||| y ≠ 0 := by
  intro hc
  apply h
  apply Nat.eq_of_testBit_eq
  intro i
  have h1 : (x ||| y).testBit i = false := by rw [hc]; simp
  rw [Nat.testBit_lor] at h1
  simp only [Nat.zero_testBit, Bool.or_eq_false_iff] at h1 ⊢
  exact h1.2

theorem rleSize_pos (a : Int) (h : 1 ≤ a) : 0 < rleSize a := by
  unfold rleSize
  by_cases h1 : a < 256
  · rw [if_pos h1]
    have h2 : a.toNat < 256 := by omega
    rw [bitCount_eq_bitLen_of_lt _ h2]
    have h3 : a.toNat ≠ 0 := by omega
    have h4 := bitLen_zero_iff a.toNat
    omega
  · rw [if_neg h1]; omega

/- ### End-of-block counting (claim C2) -/

theorem eobCount_nil : eobCount [] = 0 := rfl

theorem eobCount_append (l₁ l₂ : List Emission) :
    eobCount (l₁ ++ l₂) = eobCount l₁ + eobCount l₂ :=
  List.countP_append _ l₁ l₂

theorem eobCount_emitHuffRLE (h r : Nat) (v : Int) (hv : v ≠ 0) :
    eobCount (emitHuffRLE h r v) = 0 := by
  have ha : (1 : Int) ≤ (if v < 0 then -v else v) := by split <;> omega
  have hs := rleSize_pos _ ha
  have hsym : (r <<< 4) ||| rleSize (if v < 0 then -v else v) ≠ 0 :=
    lor_ne_zero_right _ _ (by omega)
  rw [eobCount, List.countP_eq_zero]
  intro em hem
  simp only [emitHuffRLE, List.mem_cons] at hem
  rcases hem with rfl | hem
  · simpa using hsym
  · by_cases hc : 0 < rleSize (if v < 0 then -v else v)
    · rw [if_pos hc, List.mem_singleton] at hem
      subst hem
      simp
    · rw [if_neg hc] at hem
      simp at hem

theorem eobCount_zrlFlushAux (h : Nat) : ∀ fuel run : Nat,
    eobCount (zrlFlushAux h fuel run).1 = 0 := by
  intro fuel
  induction fuel with
  | zero => intro run; rfl
  | succ fuel ih =>
    intro run
    unfold zrlFlushAux
    split
    · simp only [eobCount, List.countP_cons]
      have := ih (run - 16)
      simp only [eobCount] at this
      simp [this]
    · rfl

theorem eobCount_zrlFlush (h run : Nat) : eobCount (zrlFlush h run).1 = 0 :=
  eobCount_zrlFlushAux h run run

theorem getLast?_cons_exists {α : Type} (a : α) (l : List α) :
    ∃ y, (a :: l).getLast? = some y := by
  induction l generalizing a with
  | nil => exact ⟨a, rfl⟩
  | cons b t ih => rw [List.getLast?_cons_cons]; exact ih b

/-- The AC loop emits exactly one end-of-block code when the scanned range
ends in a zero quantized coefficient (or is empty with a pending run),
and none otherwise. -/
theorem eobCount_acScan (h : Nat) (coef : Nat → Int) :
    ∀ (zigs : List Nat) (run : Nat),
      eobCount (acScanEmissions h coef zigs run) =
        match zigs.getLast? with
        | none => if 0 < run then 1 else 0
        | some z => if coef z = 0 then 1 else 0 := by
  intro zigs
  induction zigs with
  | nil =>
    intro run
    by_cases hr : 0 < run <;> simp [acScanEmissions, eobCount, hr]
  | cons z rest ih =>
    intro run
    by_cases hz : coef z = 0
    · rw [show acScanEmissions h coef (z :: rest) run
            = acScanEmissions h coef rest (run + 1) by
          simp [acScanEmissions, hz]]
      rw [ih (run + 1)]
      cases rest with
      | nil => simp [hz]
      | cons r rs =>
        rw [List.getLast?_cons_cons]
        obtain ⟨y, hy⟩ := getLast?_cons_exists r rs
        rw [hy]
    · rw [show acScanEmissions h coef (z :: rest) run
            = (zrlFlush h run).1 ++ emitHuffRLE h (zrlFlush h run).2 (coef z)
              ++ acScanEmissions h coef rest 0 by
          simp [acScanEmissions, hz]]
      rw [eobCount_append, eobCount_append, eobCount_zrlFlush,
        eobCount_emitHuffRLE h _ _ hz, ih 0]
      cases rest with
      | nil => simp [hz]
      | cons r rs =>
        rw [List.getLast?_cons_cons]
        obtain ⟨y, hy⟩ := getLast?_cons_exists r rs
        rw [hy]
        simp

theorem zigRangeAux_getLast (n : Nat) : ∀ s : Nat, n ≠ 0 →
    (zigRangeAux n s).getLast? = some (s + n - 1) := by
  induction n with
  | zero => intro s h; omega
  | succ n ih =>
    intro s _
    cases n with
    | zero => simp [zigRangeAux]
    | succ m =>
      show (zigRangeAux (m + 2) s).getLast? = some (s + (m + 2) - 1)
      have step : zigRangeAux (m + 2) s = s :: zigRangeAux (m + 1) (s + 1) := rfl
      have step2 : zigRangeAux (m + 1) (s + 1) = (s + 1) :: zigRangeAux m (s + 2) := rfl
      rw [step, step2, List.getLast?_cons_cons, ← step2, ih (s + 1) (by omega)]
      congr 1
      omega

/-- C2: in an AC scan range `[ss, se]` with `ss ≥ 1`, `writePartialBlock`
emits exactly one end-of-block code iff the quantized coefficient at
position `se` is zero (the range ends with a trailing zero), and none
when a non-zero quantized coefficient sits exactly at `se`. -/
theorem writePartialBlock_eob (fdctF : Block → Block) (quant : Fin 2 → Nat → Nat) (q : Fin 2)
    (bIn : Block) (prevDC : Int) (ss se : Int) (h1 : 1 ≤ ss) (h2 : ss ≤ se) :
    eobCount (writePartialBlock fdctF quant q bIn prevDC ss se).1 =
      (if quantizedCoef (fdctF bIn) quant q se.toNat = 0 then 1 else 0)
    ∧ (quantizedCoef (fdctF bIn) quant q se.toNat ≠ 0 →
        eobCount (writePartialBlock fdctF quant q bIn prevDC ss se).1 = 0) := by
  have hne : ¬ (ss = 0 ∧ se = 0) := by omega
  have hpos : 0 < ss := by omega
  have hmain : eobCount (writePartialBlock fdctF quant q bIn prevDC ss se).1 =
      (if quantizedCoef (fdctF bIn) quant q se.toNat = 0 then 1 else 0) := by
    unfold writePartialBlock
    rw [if_neg hne, if_pos hpos]
    rw [eobCount_acScan]
    unfold zigRange
    rw [zigRangeAux_getLast _ _ (by omega)]
    have : ss.toNat + (se + 1 - ss).toNat - 1 = se.toNat := by omega
    rw [this]
  exact ⟨hmain, fun hnz => by rw [hmain, if_neg hnz]⟩

/-- Witness for C2 at a concrete all-zero block: the range [1,5] ends with
a (trivially) zero quantized coefficient, so exactly one EOB is emitted. -/
theorem writePartialBlock_eob_witness :
    (1 : Int) ≤ 1 ∧ (1 : Int) ≤ 5 ∧
      eobCount (writePartialBlock id (fun _ _ => 1) 0 (fun _ => 0) 0 1 5).1 =
        (if quantizedCoef (id fun _ => (0 : Int)) (fun _ _ => 1) 0 (Int.toNat 5) = 0
         then 1 else 0) :=
  ⟨by decide, by decide,
    (writePartialBlock_eob id (fun _ _ => 1) 0 (fun _ => 0) 0 1 5 (by decide) (by decide)).1⟩

/- ### emitHuffRLE against its specification (claim C8) -/

theorem bitLen_le_of_lt (n k : Nat) (h : n < 2 ^ k) : bitLen n ≤ k := by
  by_contra hc
  push_neg at hc
  have h1 : n ≠ 0 := by
    intro h0
    rw [h0] at hc
    have h2 := (bitLen_zero_iff 0).mpr rfl
    omega
  have h2 := bitLen_ge n (by omega)
  have h3 : 2 ^ k ≤ 2 ^ (bitLen n - 1) := Nat.pow_le_pow_right (by omega) (by omega)
  omega

/-- C8: `emitHuffRLE` computes the magnitude category as the bit length of
`|value|`, Huffman-encodes `(runLength << 4) | category`, then emits
exactly `category` literal bits of `value` (of `value - 1` when `value`
is negative); category 0 (exactly when `value = 0`) emits no literal. -/
theorem emitHuffRLE_spec (h runLength : Nat) (value : Int) (hv : value.natAbs < 65536) :
    emitHuffRLE h runLength value =
      Emission.huff h ((runLength <<< 4) ||| bitLen value.natAbs) ::
        (if value = 0 then []
         else [Emission.lit
                 (((if value < 0 then value - 1 else value)
                     % (2 ^ bitLen value.natAbs : Int)).toNat)
                 (bitLen value.natAbs)]) := by
  have ha : (if value < 0 then -value else value) = ((value.natAbs : Nat) : Int) := by
    rcases lt_or_le value 0 with h1 | h1
    · rw [if_pos h1]; omega
    · rw [if_neg (not_lt.mpr h1)]; omega
  simp only [emitHuffRLE, ha, rleSize_eq_bitLen value.natAbs hv]
  by_cases hv0 : value = 0
  · subst hv0
    have hb0 : bitLen 0 = 0 := rfl
    simp [hb0]
  · have hpos : 0 < bitLen value.natAbs := by
      rcases Nat.eq_zero_or_pos (bitLen value.natAbs) with h0 | h0
      · exact absurd (Int.natAbs_eq_zero.mp ((bitLen_zero_iff _).mp h0)) hv0
      · exact h0
    rw [if_pos hpos, if_neg hv0]
    have hlit : (((if value < 0 then value - 1 else value) % (2 ^ 32 : Int)).toNat
          &&& (2 ^ bitLen value.natAbs - 1))
        = ((if value < 0 then value - 1 else value)
            % (2 ^ bitLen value.natAbs : Int)).toNat := by
      set bv := if value < 0 then value - 1 else value with hbv
      set cat := bitLen value.natAbs with hcat
      have hcat16 : cat ≤ 16 := bitLen_le_of_lt _ 16 (by norm_num; omega)
      have h32 : (0 : Int) ≤ bv % (2 ^ 32 : Int) := Int.emod_nonneg _ (by norm_num)
      obtain ⟨n, hn⟩ : ∃ n : Nat, bv % (2 ^ 32 : Int) = (n : Int) :=
        ⟨_, (Int.toNat_of_nonneg h32).symm⟩
      have hdvd : ((2 : Int) ^ cat) ∣ ((2 : Int) ^ 32) := pow_dvd_pow 2 (by omega)
      have hmm : bv % ((2 : Int) ^ cat) = ((n : Int)) % ((2 : Int) ^ cat) := by
        rw [← Int.emod_emod_of_dvd bv hdvd, hn]
      rw [hn, hmm]
      have hcast : ((n : Int)) % ((2 : Int) ^ cat) = ((n % 2 ^ cat : Nat) : Int) := by
        push_cast
        rfl
      rw [hcast, Int.toNat_natCast, Int.toNat_natCast, Nat.and_pow_two_sub_one_eq_mod]
    rw [hlit]

/-- Witness for C8 at `value = -3`, `runLength = 3`: category 2, symbol
`0x32`, literal `0b00` (the two low bits of `-4`). -/
theorem emitHuffRLE_spec_witness :
    Int.natAbs (-3) < 65536 ∧
      emitHuffRLE 1 3 (-3) =
        Emission.huff 1 ((3 <<< 4) ||| bitLen (Int.natAbs (-3))) ::
          (if (-3 : Int) = 0 then []
           else [Emission.lit
                   (((if (-3 : Int) < 0 then (-3 : Int) - 1 else (-3 : Int))
                       % (2 ^ bitLen (Int.natAbs (-3)) : Int)).toNat)
                   (bitLen (Int.natAbs (-3)))]) :=
  ⟨by decide, emitHuffRLE_spec 1 3 (-3) (by decide)⟩

/- ### The bit-level writer: emit and byte stuffing (claims C3, C6) -/

/-- The encoder's bit accumulator (`bits`, `nBits` in the source) together
with the bytes written so far (`out` is the sequence of bytes handed to
`writeByte`). -/
structure EncState where
  out : List Nat
  bits : Nat
  nBits : Nat
deriving DecidableEq

/-- The `for nBits >= 8` flush loop of `emit`: write the top byte
`uint8(bits >> 24)` of the 32-bit accumulator, append a stuffed `0x00`
after a `0xff`, shift left by 8 and repeat.  Fuel-based: each iteration
requires `8 ≤ n` and decreases `n` by 8, so fuel `n` always suffices. -/
def flushBytesAux : Nat → Nat → Nat → List Nat → EncState
  | 0, bits, n, out => ⟨out, bits, n⟩
  | fuel + 1, bits, n, out =>
      if 8 ≤ n then
        let b := (bits >>> 24) % 256
        flushBytesAux fuel ((bits <<< 8) % 2 ^ 32) (n - 8)
          (out ++ (if b = 0xff then [b, 0] else [b]))
      else ⟨out, bits, n⟩

/-- The flush loop entered with accumulator `bits` holding `n` bits. -/
def flushBytes (bits n : Nat) (out : List Nat) : EncState := flushBytesAux n bits n out

/-- `emit` from the source: append the low `n` bits of `v` to the
accumulator (`nBits += e.nBits; bits <<= 32 - nBits; bits |= e.bits`) and
flush whole bytes.  32-bit wrap-around is modelled with `% 2 ^ 32`.
Precondition at call sites: `v < 2 ^ n` and `n ≤ 16`. -/
def emit (e : EncState) (v n : Nat) : EncState :=
  let nn := n + e.nBits
  flushBytes (((v <<< (32 - nn)) % 2 ^ 32) ||| e.bits) nn e.out

/-- A sequence of `emit` calls starting from the empty accumulator. -/
def emitSeq (calls : List (Nat × Nat)) : EncState :=
  calls.foldl (fun e c => emit e c.1 c.2) ⟨[], 0, 0⟩

/-- Byte-stuffing well-formedness of an output byte sequence: every `0xff`
byte is immediately followed by a `0x00` byte. -/
def StuffedOk (l : List Nat) : Prop :=
  List.Chain' (fun a b => a = 0xff → b = 0) l ∧ l.getLast? ≠ some 0xff

theorem stuffedOk_nil : StuffedOk [] := ⟨List.chain'_nil, by simp⟩

theorem stuffedOk_append_single (l : List Nat) (b : Nat) (hl : StuffedOk l) (hb : b ≠ 0xff) :
    StuffedOk (l ++ [b]) := by
  obtain ⟨hc, hlast⟩ := hl
  constructor
  · rw [List.chain'_append]
    refine ⟨hc, List.chain'_singleton _, ?_⟩
    intro x hx y _ hxff
    subst hxff
    exact absurd (Option.mem_def.mp hx) hlast
  · simp [hb]

theorem stuffedOk_append_ff (l : List Nat) (hl : StuffedOk l) :
    StuffedOk (l ++ [0xff, 0]) := by
  obtain ⟨hc, hlast⟩ := hl
  constructor
  · rw [List.chain'_append]
    refine ⟨hc, ?_, ?_⟩
    · refine List.chain'_cons.mpr ⟨fun _ => rfl, List.chain'_singleton _⟩
    · intro x hx y _ hxff
      subst hxff
      exact absurd (Option.mem_def.mp hx) hlast
  · simp [List.getLast?_append]

theorem flushBytesAux_stuffed : ∀ (fuel bits n : Nat) (out : List Nat), StuffedOk out →
    StuffedOk (flushBytesAux fuel bits n out).out := by
  intro fuel
  induction fuel with
  | zero => intro bits n out h; exact h
  | succ fuel ih =>
    intro bits n out h
    unfold flushBytesAux
    split
    · apply ih
      by_cases hb : (bits >>> 24) % 256 = 0xff
      · rw [if_pos hb, hb]
        exact stuffedOk_append_ff out h
      · rw [if_neg hb]
        exact stuffedOk_append_single out _ h hb
    · exact h

theorem flushBytesAux_nBits : ∀ (fuel bits n : Nat) (out : List Nat), n ≤ 8 * fuel + 7 →
    (flushBytesAux fuel bits n out).nBits = n % 8 := by
  intro fuel
  induction fuel with
  | zero =>
    intro bits n out h
    show n = n % 8
    omega
  | succ fuel ih =>
    intro bits n out h
    unfold flushBytesAux
    split
    · rw [ih _ (n - 8) _ (by omega)]
      omega
    · show n = n % 8
      omega

theorem emit_nBits (e : EncState) (v n : Nat) : (emit e v n).nBits = (n + e.nBits) % 8 := by
  unfold emit flushBytes
  exact flushBytesAux_nBits _ _ _ _ (by omega)

theorem emit_stuffed (e : EncState) (v n : Nat) (h : StuffedOk e.out) :
    StuffedOk (emit e v n).out :=
  flushBytesAux_stuffed _ _ _ _ h

/-- C6: for any sequence of `emit` calls satisfying the precondition,
every full byte is flushed (fewer than 8 bits ever remain buffered after
an `emit` returns) and every written `0xff` byte is immediately followed
by a stuffed `0x00` byte. -/
theorem emit_byte_stuffing (calls : List (Nat × Nat))
    (hpre : ∀ c ∈ calls, c.1 < 2 ^ c.2 ∧ c.2 ≤ 16) :
    StuffedOk (emitSeq calls).out ∧ (emitSeq calls).nBits < 8 := by
  have main : ∀ (cs : List (Nat × Nat)) (e : EncState), StuffedOk e.out → e.nBits < 8 →
      StuffedOk (cs.foldl (fun e c => emit e c.1 c.2) e).out ∧
        (cs.foldl (fun e c => emit e c.1 c.2) e).nBits < 8 := by
    intro cs
    induction cs with
    | nil => intro e h1 h2; exact ⟨h1, h2⟩
    | cons c rest ih =>
      intro e h1 h2
      simp only [List.foldl_cons]
      refine ih _ (emit_stuffed e c.1 c.2 h1) ?_
      rw [emit_nBits]
      omega
  exact main calls ⟨[], 0, 0⟩ stuffedOk_nil (by decide)

/-- Witness for C6: emitting the 8-bit value `0xff` writes the stuffed
pair `[0xff, 0x00]`. -/
theorem emit_byte_stuffing_witness :
    (∀ c ∈ [((255 : Nat), (8 : Nat))], c.1 < 2 ^ c.2 ∧ c.2 ≤ 16) ∧
      StuffedOk (emitSeq [(255, 8)]).out ∧ (emitSeq [(255, 8)]).nBits < 8 :=
  ⟨by decide, emit_byte_stuffing [(255, 8)] (by decide)⟩

/-- The end of `writeProgressiveSOS` from the source: pad the last byte
with 1-bits (`emit(0x7f, 7)`), then, if any bits remain buffered, pad
them to a full byte with `(1 << bitsNeeded) - 1` where
`bitsNeeded = 8 - nBits`. -/
def progressiveScanPads (e : EncState) : EncState :=
  let e1 := emit e 0x7f 7
  if 0 < e1.nBits then emit e1 ((1 <<< (8 - e1.nBits)) - 1) (8 - e1.nBits) else e1

/-- The full scan ending: the pads above followed by the reset
`e.bits = 0; e.nBits = 0`. -/
def progressiveScanEnd (e : EncState) : EncState :=
  let e2 := progressiveScanPads e
  { e2 with bits := 0, nBits := 0 }

/-- C3: at the end of a progressive scan the two pads leave the stream
byte-aligned (no buffered bits remain, so the subsequent reset discards
nothing), and the final accumulator state is empty with the padded
output unchanged. -/
theorem progressiveScanEnd_spec (e : EncState) :
    (progressiveScanPads e).nBits = 0
    ∧ progressiveScanEnd e = ⟨(progressiveScanPads e).out, 0, 0⟩ := by
  constructor
  · unfold progressiveScanPads
    by_cases hp : 0 < (emit e 0x7f 7).nBits
    · rw [if_pos hp, emit_nBits]
      have h1 := emit_nBits e 0x7f 7
      omega
    · rw [if_neg hp]
      omega
  · rfl

/- ### Quantization-table scaling (claim C5) -/

/-- The unscaled luminance quantization table of the source, zig-zag
order. -/
def unscaledQuantLuminance : List Nat :=
  [16, 11, 12, 14, 12, 10, 16, 14,
   13, 14, 18, 17, 16, 19, 24, 40,
   26, 24, 22, 22, 24, 49, 35, 37,
   29, 40, 58, 51, 61, 60, 57, 51,
   56, 55, 64, 72, 92, 78, 64, 68,
   87, 69, 55, 56, 80, 109, 81, 87,
   95, 98, 103, 104, 103, 62, 77, 113,
   121, 112, 100, 120, 92, 101, 103, 99]

/-- The unscaled chrominance quantization table of the source, zig-zag
order. -/
def unscaledQuantChrominance : List Nat :=
  [17, 18, 18, 24, 21, 24, 47, 26,
   26, 47, 99, 66, 56, 66, 99, 99,
   99, 99, 99, 99, 99, 99, 99, 99,
   99, 99, 99, 99, 99, 99, 99, 99,
   99, 99, 99, 99, 99, 99, 99, 99,
   99, 99, 99, 99, 99, 99, 99, 99,
   99, 99, 99, 99, 99, 99, 99, 99,
   99, 99, 99, 99, 99, 99, 99, 99]

/-- `unscaledQuant[t][i]` of the source (index 0: luminance, 1:
chrominance). -/
def baseQuant (t : Fin 2) (i : Nat) : Nat :=
  (if t = (0 : Fin 2) then unscaledQuantLuminance else unscaledQuantChrominance).getD i 0

/-- The quality clamp of `Encode`: values below 1 become 1, above 100
become 100. -/
def clampQuality (q : Int) : Int :=
  if q < 1 then 1 else if 100 < q then 100 else q

/-- The quality → scale conversion of `Encode`: `5000/quality` below 50,
`200 - quality*2` otherwise (Go integer division is `Int.tdiv`). -/
def qualityScale (quality : Int) : Int :=
  if quality < 50 then Int.tdiv 5000 quality else 200 - quality * 2

/-- One scaled table entry of `Encode`: `x = (base*scale + 50) / 100`
clamped into `[1, 255]` and stored as a byte. -/
def scaledQuantEntry (base : Nat) (scale : Int) : Nat :=
  let x := Int.tdiv ((base : Int) * scale + 50) 100
  if x < 1 then 1 else if 255 < x then 255 else x.toNat

/-- The scaled quantization tables as built once per `Encode` call. -/
def scaledQuant (quality : Int) (t : Fin 2) (i : Nat) : Nat :=
  scaledQuantEntry (baseQuant t i) (qualityScale (clampQuality quality))

/-- Claim-side clamp: `clamp(lo, hi, x) = max lo (min hi x)`. -/
def specClamp (lo hi : Nat) (x : Int) : Int := max (lo : Int) (min (hi : Int) x)

theorem clampQuality_bounds (q : Int) : 1 ≤ clampQuality q ∧ clampQuality q ≤ 100 := by
  unfold clampQuality
  split
  · omega
  · split <;> omega

theorem scaledQuantEntry_bounds (base : Nat) (scale : Int) :
    1 ≤ scaledQuantEntry base scale ∧ scaledQuantEntry base scale ≤ 255 := by
  simp only [scaledQuantEntry]
  split
  · omega
  · split
    · omega
    · omega

/-- C5: after clamping the quality to `[1, 100]`, every scaled
quantization table entry equals `clamp(1, 255, (base*scale + 50)/100)`
with `scale = 5000/quality` below quality 50 and `200 - 2*quality`
otherwise; consequently every entry of both scaled tables lies in
`[1, 255]`. -/
theorem scaledQuant_spec (quality : Int) (t : Fin 2) (i : Fin 64) :
    (1 ≤ clampQuality quality ∧ clampQuality quality ≤ 100)
    ∧ (scaledQuant quality t i.val : Int) =
        specClamp 1 255 (Int.tdiv ((baseQuant t i.val : Int)
          * qualityScale (clampQuality quality) + 50) 100)
    ∧ 1 ≤ scaledQuant quality t i.val ∧ scaledQuant quality t i.val ≤ 255 := by
  refine ⟨clampQuality_bounds quality, ?_,
    (scaledQuantEntry_bounds _ _).1, (scaledQuantEntry_bounds _ _).2⟩
  unfold scaledQuant scaledQuantEntry specClamp
  set x := Int.tdiv ((baseQuant t i.val : Int) * qualityScale (clampQuality quality)) 100 with hx
  by_cases h1 : Int.tdiv ((baseQuant t i.val : Int) * qualityScale (clampQuality quality) + 50) 100 < 1
  · rw [if_pos h1]
    simp only [Nat.cast_one]
    omega
  · rw [if_neg h1]
    by_cases h2 : 255 < Int.tdiv ((baseQuant t i.val : Int) * qualityScale (clampQuality quality) + 50) 100
    · rw [if_pos h2]
      simp only [Nat.cast_ofNat]
      omega
    · rw [if_neg h2]
      rw [Int.toNat_of_nonneg (by omega)]
      omega

/- ### Scan scripts: model, validation, defaults (claims C4, C10) -/

/-- `ProgressiveScan` from the source: one scan descriptor. -/
structure ProgressiveScan where
  component : Int
  spectralStart : Int
  spectralEnd : Int
  successiveApproxHigh : Int
  successiveApproxLow : Int
deriving DecidableEq

/-- The validation errors of `validateScanScript`; the source returns
distinguishable error strings, modelled as constructors. -/
inductive ScanScriptError where
  | emptyScript
  | invalidComponent
  | invalidSpectralStart
  | invalidSpectralEnd
  | invalidSuccessiveHigh
  | invalidSuccessiveLow
  | successiveLowGtHigh
  | dcInvalidComponent
  | acInterleaved
deriving DecidableEq

/-- The per-scan checks of `validateScanScript`, in source order. -/
def validateScan (scan : ProgressiveScan) (nComponent : Int) : Option ScanScriptError :=
  if scan.component < -1 ∨ nComponent ≤ scan.component then some .invalidComponent
  else if scan.spectralStart < 0 ∨ 63 < scan.spectralStart then some .invalidSpectralStart
  else if scan.spectralEnd < scan.spectralStart ∨ 63 < scan.spectralEnd then
    some .invalidSpectralEnd
  else if scan.successiveApproxHigh < 0 ∨ 13 < scan.successiveApproxHigh then
    some .invalidSuccessiveHigh
  else if scan.successiveApproxLow < 0 ∨ 13 < scan.successiveApproxLow then
    some .invalidSuccessiveLow
  else if scan.successiveApproxHigh < scan.successiveApproxLow then some .successiveLowGtHigh
  else if scan.spectralStart = 0 ∧ scan.spectralEnd = 0 then
    if scan.component ≠ -1 ∧ nComponent ≤ scan.component then some .dcInvalidComponent
    else none
  else
    if scan.component = -1 then some .acInterleaved else none

/-- `validateScanScript` from the source: reject the empty script, else
return the first per-scan error in script order. -/
def validateScanScript (script : List ProgressiveScan) (nComponent : Int) :
    Option ScanScriptError :=
  if script.length = 0 then some .emptyScript
  else script.findSome? fun s => validateScan s nComponent

/-- `DefaultGrayscaleScanScript` from the source. -/
def DefaultGrayscaleScanScript : List ProgressiveScan :=
  [⟨0, 0, 0, 0, 0⟩, ⟨0, 1, 9, 0, 0⟩, ⟨0, 10, 63, 0, 0⟩]

/-- `DefaultColorScanScript` from the source. -/
def DefaultColorScanScript : List ProgressiveScan :=
  [⟨-1, 0, 0, 0, 0⟩, ⟨0, 1, 2, 0, 0⟩, ⟨0, 3, 9, 0, 0⟩,
   ⟨1, 1, 5, 0, 0⟩, ⟨2, 1, 5, 0, 0⟩,
   ⟨0, 10, 63, 0, 0⟩, ⟨1, 6, 63, 0, 0⟩, ⟨2, 6, 63, 0, 0⟩]

/-- The script choice of `writeProgressive`: the supplied script if any,
else the default for the component count; then validate, falling back to
the default on any validation error (the error never escapes). -/
def selectScript (supplied : Option (List ProgressiveScan)) (nComponent : Int) :
    List ProgressiveScan :=
  let script :=
    match supplied with
    | some s => s
    | none => if nComponent = 3 then DefaultColorScanScript else DefaultGrayscaleScanScript
  match validateScanScript script nComponent with
  | some _ => if nComponent = 3 then DefaultColorScanScript else DefaultGrayscaleScanScript
  | none => script

/- ### Decoder: progressive header checks and first-pass DC (claims C1, C7) -/

/-- The decoder's `FormatError` cases raised by the progressive SOS
header checks, modelled as constructors. -/
inductive DecodeError where
  | badSpectralBounds
  | progressiveACMultipleComponents
  | badSuccessiveApproximation
deriving DecidableEq

/-- The progressive checks of `processSOS` on `(zigStart, zigEnd, ah, al)`
read from the scan header, in source order (`blockSize` is 64). -/
def checkProgressiveScanHeader (zigStart zigEnd : Int) (ah al : Nat) (nComp : Nat) :
    Option DecodeError :=
  if (zigStart = 0 ∧ zigEnd ≠ 0) ∨ zigEnd < zigStart ∨ (64 : Int) ≤ zigEnd then
    some .badSpectralBounds
  else if zigStart ≠ 0 ∧ nComp ≠ 1 then some .progressiveACMultipleComponents
  else if ah ≠ 0 ∧ ah ≠ al + 1 then some .badSuccessiveApproximation
  else none

/-- The first-pass DC decoding step of `processSOS` (`ah = 0`,
`zig = zigStart = 0`): once `dcDelta` has been Huffman- and
extend-decoded, the per-component predictor is updated
(`dc[compIndex] += dcDelta`) and `b[0] = dc[compIndex] << al` is stored.
The Huffman/extend decoding of the delta lives in a repository file not
under `src/`, so the step takes the decoded delta as input; the `int32`
shift is `* 2 ^ al` (no wrap-around for in-range JPEG DC values). -/
def dcFirstPassStep (al : Nat) (dcPred dcDelta : Int) : Int × Int :=
  let dc := dcPred + dcDelta
  (dc, dc * 2 ^ al)

/-- A first-scan DC pass over the blocks of one component: fold the step
over the per-block decoded deltas, starting from predictor 0 (reset at
the start of a scan), collecting the stored coefficient 0 of each
block. -/
def dcFirstPassScanAux (al : Nat) : List Int → Int → List Int
  | [], _ => []
  | d :: rest, pred =>
      (dcFirstPassStep al pred d).2 :: dcFirstPassScanAux al rest (dcFirstPassStep al pred d).1

/-- The stored coefficient-0 values of a first-scan DC pass. -/
def dcFirstPassScan (al : Nat) (deltas : List Int) : List Int := dcFirstPassScanAux al deltas 0

/-- Claim-side: running sums of the decoded deltas. -/
def prefixSumsAux : List Int → Int → List Int
  | [], _ => []
  | d :: rest, acc => (acc + d) :: prefixSumsAux rest (acc + d)

/-- Running sums starting from 0. -/
def prefixSums (l : List Int) : List Int := prefixSumsAux l 0

/-- C7: with the earlier progressive header checks passing, `ah ≠ 0` and
`ah ≠ al + 1` is a fatal format error (bad successive approximation
values), while `ah = 0` or `ah = al + 1` passes the check and the header
validation succeeds. -/
theorem successiveApproximation_check (zigStart zigEnd : Int) (ah al nComp : Nat)
    (h1 : ¬ ((zigStart = 0 ∧ zigEnd ≠ 0) ∨ zigEnd < zigStart ∨ (64 : Int) ≤ zigEnd))
    (h2 : ¬ (zigStart ≠ 0 ∧ nComp ≠ 1)) :
    (ah ≠ 0 ∧ ah ≠ al + 1 →
      checkProgressiveScanHeader zigStart zigEnd ah al nComp
        = some .badSuccessiveApproximation)
    ∧ (ah = 0 ∨ ah = al + 1 →
      checkProgressiveScanHeader zigStart zigEnd ah al nComp = none) := by
  constructor
  · intro h3
    unfold checkProgressiveScanHeader
    rw [if_neg h1, if_neg h2, if_pos h3]
  · intro h3
    unfold checkProgressiveScanHeader
    rw [if_neg h1, if_neg h2, if_neg (by omega)]

/-- Witness for C7: on the AC scan header `(ss, se) = (1, 5)` of a
single-component scan, `ah = 3, al = 1` is rejected while `ah = 2,
al = 1` passes. -/
theorem successiveApproximation_check_witness :
    checkProgressiveScanHeader 1 5 3 1 1 = some .badSuccessiveApproximation
    ∧ checkProgressiveScanHeader 1 5 2 1 1 = none :=
  ⟨(successiveApproximation_check 1 5 3 1 1 (by decide) (by decide)).1 (by decide),
   (successiveApproximation_check 1 5 2 1 1 (by decide) (by decide)).2 (by decide)⟩

/-- C1 counterexample: with `al = 0` and two blocks of decoded delta 1
each, the second block stores the accumulated predictor value 2, not
`delta << al = 1` as the claim states. -/
theorem dcFirstPass_counterexample :
    dcFirstPassScan 0 [1, 1] = [1, 2]
    ∧ (dcFirstPassScan 0 [1, 1]).getD 1 0 ≠ (1 : Int) * 2 ^ (0 : Nat) := by
  constructor
  · rfl
  · decide

/-- C1 amended: in a first-scan DC pass the decoder adds each decoded
delta to the per-component predictor and stores the *updated predictor*
shifted left by `al` — that is, the running sum of the decoded deltas —
into coefficient 0 of each block. -/
theorem dcFirstPass_stores_predictor (al : Nat) (deltas : List Int) :
    dcFirstPassScan al deltas = (prefixSums deltas).map (fun v => v * 2 ^ al) := by
  have aux : ∀ (l : List Int) (p : Int),
      dcFirstPassScanAux al l p = (prefixSumsAux l p).map (fun v => v * 2 ^ al) := by
    intro l
    induction l with
    | nil => intro p; rfl
    | cons d rest ih =>
      intro p
      simp [dcFirstPassScanAux, prefixSumsAux, dcFirstPassStep, ih]
  exact aux deltas 0

/-- C10: a descriptor with `component ≥ 0`, `spectralStart = 0`,
`0 < spectralEnd ≤ 63` and zero successive-approximation fields passes
every validation check, yet `writePartialBlock` on that range emits
nothing (neither DC nor AC) and returns 0, so the scan's entropy data is
empty. -/
theorem dcRangeScan_validates_but_empty (comp se nComponent : Int)
    (hc0 : 0 ≤ comp) (hcn : comp < nComponent) (hse0 : 0 < se) (hse : se ≤ 63)
    (fdctF : Block → Block) (quant : Fin 2 → Nat → Nat) (q : Fin 2)
    (bIn : Block) (prevDC : Int) :
    validateScanScript [⟨comp, 0, se, 0, 0⟩] nComponent = none
    ∧ writePartialBlock fdctF quant q bIn prevDC 0 se = ([], 0) := by
  constructor
  · have h1 : validateScan ⟨comp, 0, se, 0, 0⟩ nComponent = none := by
      simp only [validateScan]
      rw [if_neg (by omega), if_neg (by decide), if_neg (by omega), if_neg (by decide),
        if_neg (by decide), if_neg (by decide), if_neg (by omega), if_neg (by omega)]
    unfold validateScanScript
    rw [if_neg (by simp)]
    simp [List.findSome?, h1]
  · unfold writePartialBlock
    rw [if_neg (by omega), if_neg (by omega)]

/-- Witness for C10 at component 0, range `[0, 5]`, one component. -/
theorem dcRangeScan_witness :
    validateScanScript [⟨0, 0, 5, 0, 0⟩] 1 = none
    ∧ writePartialBlock id (fun _ _ => 1) 0 (fun _ => 0) 0 0 5 = ([], 0) :=
  dcRangeScan_validates_but_empty 0 5 1 (by decide) (by decide) (by decide) (by decide)
    id (fun _ _ => 1) 0 (fun _ => 0) 0

/- ### The Encode entry point at the event level (claims C4, C9) -/

/-- The error `Encode` returns before writing anything (the source
message is "jpeg: image is too large to encode"). -/
inductive EncodeError where
  | imageTooLarge
deriving DecidableEq

/-- Marker-level events written by the encoder, in write order.
Entropy-coded data is carried at the `Emission` symbol level. -/
inductive EncodeEvent where
  | soi
  | dqt (tables : List (List Nat))
  | sof (marker : Nat) (width height : Nat) (nComponent : Int)
  | dht (nComponent : Int)
  | sosBaseline (entropy : List Emission)
  | sosProgressive (component ss se ah al : Int) (entropy : List Emission)
  | eoi
deriving DecidableEq

/-- The result of `Encode`: the write events and the returned error. -/
structure EncodeResult where
  events : List EncodeEvent
  error : Option EncodeError
deriving DecidableEq

/-- `Options` from the source (`ScanScript == nil` is `none`). -/
structure Options where
  quality : Int
  progressive : Bool
  scanScript : Option (List ProgressiveScan)
deriving DecidableEq

/-- The DC-predictor threading of `processImageBlocks`: the blocks
delivered by the (external, out-of-scope) pixel-to-block conversion are
a list of (component, block) visits in traversal order; the predictors
`prevDCY`, `prevDCCb`, `prevDCCr` are threaded through the processor as
in the source. -/
def processBlocksAux (proc : Fin 3 → Block → Int → List Emission × Int) :
    List (Fin 3 × Block) → Int → Int → Int → List Emission
  | [], _, _, _ => []
  | (c, b) :: rest, dcY, dcCb, dcCr =>
      let prev := if c = 0 then dcY else if c = 1 then dcCb else dcCr
      let r := proc c b prev
      r.1 ++ processBlocksAux proc rest
        (if c = 0 then r.2 else dcY) (if c = 1 then r.2 else dcCb)
        (if c = 2 then r.2 else dcCr)

/-- `processImageBlocks` with all predictors starting at 0. -/
def processBlocks (proc : Fin 3 → Block → Int → List Emission × Int)
    (visits : List (Fin 3 × Block)) : List Emission :=
  processBlocksAux proc visits 0 0 0

/-- The quantization class a component is processed with: 0 (luminance)
for Y, 1 (chrominance) for Cb and Cr, as in `processImageBlocks`. -/
def quantIndexOf (c : Fin 3) : Fin 2 := if c = 0 then 0 else 1

/-- `writeProgressiveSOS` as an event: the SOS header fields of the scan
followed by the `writePartialBlock` entropy of every visited block. -/
def writeProgressiveSOSEvent (fdctF : Block → Block) (quant : Fin 2 → Nat → Nat)
    (visits : List (Fin 3 × Block)) (scan : ProgressiveScan) : EncodeEvent :=
  .sosProgressive scan.component scan.spectralStart scan.spectralEnd
    scan.successiveApproxHigh scan.successiveApproxLow
    (processBlocks
      (fun c b prev => writePartialBlock fdctF quant (quantIndexOf c) b prev
        scan.spectralStart scan.spectralEnd)
      visits)

/-- `writeSOS` (baseline) as an event: the fixed full-range header and
`writeBlock` on every visited block. -/
def writeSOSEvent (fdctF : Block → Block) (quant : Fin 2 → Nat → Nat)
    (visits : List (Fin 3 × Block)) : EncodeEvent :=
  .sosBaseline (processBlocks
    (fun c b prev => writeBlock fdctF quant (quantIndexOf c) b prev) visits)

/-- `writeProgressive` from the source as events: SOF2, DHT, then one SOS
per descriptor of the selected script.  `blockSrc` abstracts the
traversal of `processImageBlocks`: the blocks visited for a scan of the
given component (−1 meaning all components). -/
def writeProgressiveEvents (width height : Nat) (nComponent : Int)
    (fdctF : Block → Block) (quant : Fin 2 → Nat → Nat)
    (blockSrc : Int → List (Fin 3 × Block))
    (scanScript : Option (List ProgressiveScan)) : List EncodeEvent :=
  [.sof 0xc2 width height nComponent, .dht nComponent] ++
    (selectScript scanScript nComponent).map
      (fun scan => writeProgressiveSOSEvent fdctF quant (blockSrc scan.component) scan)

/-- `Encode` from the source at the event level.  The image is abstracted
by its bounds size, whether it is grayscale, and the external
pixel-to-block conversion `blockSrc`.  The size check precedes every
write; sink I/O cannot fail in the model, so `error` is otherwise
`none`. -/
def Encode (width height : Nat) (gray : Bool) (o : Option Options)
    (fdctF : Block → Block) (blockSrc : Int → List (Fin 3 × Block)) : EncodeResult :=
  if 2 ^ 16 ≤ width ∨ 2 ^ 16 ≤ height then ⟨[], some .imageTooLarge⟩
  else
    let quality : Int :=
      match o with
      | none => 75
      | some oo => oo.quality
    let quant : Fin 2 → Nat → Nat := fun t i => scaledQuant quality t i
    let nComponent : Int := if gray then 1 else 3
    let tables : List (List Nat) :=
      [(List.range 64).map (quant 0), (List.range 64).map (quant 1)]
    let body : List EncodeEvent :=
      match o with
      | some oo =>
          if oo.progressive then
            writeProgressiveEvents width height nComponent fdctF quant blockSrc oo.scanScript
          else
            [.sof 0xc0 width height nComponent, .dht nComponent,
             writeSOSEvent fdctF quant (blockSrc (-1))]
      | none =>
          [.sof 0xc0 width height nComponent, .dht nComponent,
           writeSOSEvent fdctF quant (blockSrc (-1))]
    ⟨[.soi, .dqt tables] ++ body ++ [.eoi], none⟩

/-- C9: images with width or height at least `2^16` are rejected with the
image-too-large error before any write event; smaller images pass the
check, no error is returned and writing begins with SOI. -/
theorem encode_size_guard (width height : Nat) (gray : Bool) (o : Option Options)
    (fdctF : Block → Block) (blockSrc : Int → List (Fin 3 × Block)) :
    (2 ^ 16 ≤ width ∨ 2 ^ 16 ≤ height →
      Encode width height gray o fdctF blockSrc = ⟨[], some .imageTooLarge⟩)
    ∧ (width < 2 ^ 16 → height < 2 ^ 16 →
      (Encode width height gray o fdctF blockSrc).error = none
      ∧ (Encode width height gray o fdctF blockSrc).events.head? = some .soi) := by
  constructor
  · intro h
    unfold Encode
    rw [if_pos h]
  · intro h1 h2
    unfold Encode
    rw [if_neg (by omega)]
    exact ⟨rfl, rfl⟩

/-- Witness for C9: a 65536-wide image is rejected with no events; an
8×8 image passes the check. -/
theorem encode_size_guard_witness :
    Encode 65536 8 true none id (fun _ => []) = ⟨[], some .imageTooLarge⟩
    ∧ (Encode 8 8 true none id (fun _ => [])).error = none :=
  ⟨(encode_size_guard 65536 8 true none id (fun _ => [])).1 (by decide),
   ((encode_size_guard 8 8 true none id (fun _ => [])).2 (by decide) (by decide)).1⟩

/-- C4: any supplied script failing validation (the empty script
included) is silently replaced by the built-in default for the component
count in use (grayscale for 1 component, color otherwise); `Encode`
surfaces no validation error. -/
theorem invalid_script_fallback (script : List ProgressiveScan) (nComponent : Int)
    (hfail : validateScanScript script nComponent ≠ none)
    (hn : nComponent = 1 ∨ nComponent = 3) :
    selectScript (some script) nComponent
      = (if nComponent = 1 then DefaultGrayscaleScanScript else DefaultColorScanScript)
    ∧ ∀ (width height : Nat) (gray : Bool) (quality : Int)
        (fdctF : Block → Block) (blockSrc : Int → List (Fin 3 × Block)),
        width < 2 ^ 16 → height < 2 ^ 16 →
        (Encode width height gray (some ⟨quality, true, some script⟩) fdctF blockSrc).error
          = none := by
  constructor
  · obtain ⟨e, he⟩ : ∃ e, validateScanScript script nComponent = some e := by
      cases hv : validateScanScript script nComponent
      · exact absurd hv hfail
      · exact ⟨_, rfl⟩
    simp only [selectScript, he]
    rcases hn with rfl | rfl
    · simp
    · simp
  · intro width height gray quality fdctF blockSrc h1 h2
    unfold Encode
    rw [if_neg (by omega)]

/-- Witness for C4: the empty script fails validation for 3 components
and is replaced by the color default. -/
theorem invalid_script_fallback_witness :
    validateScanScript [] 3 ≠ none
    ∧ selectScript (some []) 3
        = (if (3 : Int) = 1 then DefaultGrayscaleScanScript else DefaultColorScanScript) :=
  ⟨by decide, (invalid_script_fallback [] 3 (by decide) (Or.inr rfl)).1⟩
